import Mathlib

/-!
Verification of the dash-dot-challenge quiz core.

The development shallowly embeds the two logic-bearing parts of the
repository:

* `src/src/pages/Competition.tsx` — the progress/gating state machine
  (active-index computation on load, `canAccessQuestion`, `handleSubmit`,
  the Locked-state recovery action);
* the Navbar component (leaderboard) — `loadLeaderboard`: paginated fetch,
  per-user grouping with per-question deduplication, scoring, sorting,
  top-10 truncation and 1-based ranking, and the retry-with-backoff
  schedule.

JavaScript numbers are modelled as `Int` (times, timestamps) and `ℚ`
(scores, which in the source are floating point; the exact-rational model
captures the intended arithmetic of the score formula). JavaScript objects
used as string-keyed maps are modelled as association lists that preserve
insertion order, matching the iteration order of string-keyed objects and
of `Set`.
-/

namespace MorseQuiz

/-- A question row, as selected in `Competition.tsx`
(`id, question_number, question_text, correct_answer`). -/
structure Question where
  id : String
  question_number : Nat
  question_text : String
  correct_answer : String
deriving DecidableEq

/-- The per-question outcome stored in the local `answers` map
(`{ answer, isCorrect, timestamp }`). -/
structure Outcome where
  answer : String
  isCorrect : Bool
  timestamp : Int
deriving DecidableEq

/-- The `answers` object of `userProgress`: a string-keyed map from
`question_id` to `Outcome`, modelled as an insertion-ordered association
list. -/
abbrev AnswersMap := List (String × Outcome)

/-- Key lookup in the answers map (first matching key). -/
def lookupAnswer : AnswersMap → String → Option Outcome
  | [], _ => none
  | (k, v) :: rest, qid => if k = qid then some v else lookupAnswer rest qid

/-- Whether the map records a correct outcome for `qid` — the source's
`answers[q.id] && answers[q.id].isCorrect` (a missing entry counts as not
correct, as in the JavaScript truthiness checks). -/
def isCorrectOutcome (ans : AnswersMap) (qid : String) : Bool :=
  match lookupAnswer ans qid with
  | none => false
  | some o => o.isCorrect

/-- The scanning loop of `fetchQuestionsAndProgress` (Competition.tsx
lines 76–86): iterate over the questions with current position `i`;
if the question has no answer or an incorrect one, the active index is `i`
(the `break`); otherwise, if this is the last question, the active index is
set to the last position (which equals `i`). -/
def activeIndexAux (ans : AnswersMap) : List Question → Nat → Nat
  | [], _ => 0
  | q :: rest, i =>
    if isCorrectOutcome ans q.id = false then i
    else
      match rest with
      | [] => i
      | q2 :: rest2 => activeIndexAux ans (q2 :: rest2) (i + 1)

/-- The active question index computed on load: the loop above started at
position 0 (with `currentQuestionIndex` initialised to 0, which is the
result for an empty question list). -/
def computeActiveIndex (qs : List Question) (ans : AnswersMap) : Nat :=
  activeIndexAux ans qs 0

/-- The access check `canAccessQuestion` (Competition.tsx lines 105–111):
index 0 is always
accessible; with an empty question list other indices are not; otherwise
the previous question's recorded answer must exist and be correct.
(For an in-range index `i` the `get?` is `some`; the `none` branch stands
for the out-of-bounds access the component never performs.) -/
def canAccessQuestion (questionIndex : Nat) (qs : List Question)
    (ans : AnswersMap) : Bool :=
  if questionIndex = 0 then true
  else if qs.length = 0 then false
  else
    match qs.get? (questionIndex - 1) with
    | none => false
    | some prev => isCorrectOutcome ans prev.id

/-- The whitespace characters removed by JavaScript `String.prototype.trim`
(ASCII subset: space, tab, line feed, carriage return, vertical tab, form
feed; the source strings are morse dot/dash strings, so this subset is the
relevant one). -/
def isJsWhitespace (c : Char) : Bool :=
  c = ' ' || c = '\t' || c = '\n' || c = '\r' ||
  c = Char.ofNat 11 || c = Char.ofNat 12

/-- JavaScript `String.prototype.trim`: drop leading and trailing
whitespace. -/
def jsTrim (s : String) : String :=
  ⟨((s.data.dropWhile isJsWhitespace).reverse.dropWhile isJsWhitespace).reverse⟩

/-- The correctness check of `handleSubmit` (Competition.tsx line 128):
`morseInput.trim() === currentQuestion.correct_answer`. -/
def submitIsCorrect (morseInput : String) (q : Question) : Bool :=
  jsTrim morseInput == q.correct_answer

/-- The `userProgress` state of the Competition component. -/
structure ProgressState where
  currentQuestionIndex : Nat
  answers : AnswersMap
  completedQuestions : List String
deriving DecidableEq

/-- The local component state involved in `handleSubmit`. -/
structure CompetitionState where
  questions : List Question
  currentQuestionIndex : Nat
  morseInput : String
  questionStartTime : Option Int
  userProgress : ProgressState
deriving DecidableEq

/-- The row upserted into `user_answers` on submit (the `user_id` column is
fixed to the session user and omitted). -/
structure UpsertRecord where
  question_id : String
  user_answer : String
  is_correct : Bool
  time_taken_seconds : Int
  answered_at : Int
deriving DecidableEq

/-- JavaScript-object update `answers[qid] = o`: overwrite in place if the
key exists, append otherwise. -/
def setAnswer : AnswersMap → String → Outcome → AnswersMap
  | [], qid, o => [(qid, o)]
  | (k, v) :: rest, qid, o =>
    if k = qid then (k, o) :: rest else (k, v) :: setAnswer rest qid o

/-- Set-based deduplication `[...new Set(l)]`: keep the first occurrence of
each string. -/
def dedupStrings : List String → List String → List String
  | [], _ => []
  | x :: rest, seen =>
    if x ∈ seen then dedupStrings rest seen
    else x :: dedupStrings rest (seen ++ [x])

/-- The submit handler `handleSubmit` (Competition.tsx lines 117–174) as a
pure transition:
given the component state, whether the single `upsert` succeeds, and the
current time `now` (milliseconds), it returns the new local state and the
list of upsert payloads attempted. Empty (after trim) input, a missing
start time, and an empty question list are rejected before any write; a
failed persist returns before any local update; on success the answers map
is updated, and on a correct non-final answer the index advances, the
input buffer is cleared and the timer restarts. -/
def handleSubmit (st : CompetitionState) (persistOk : Bool) (now : Int) :
    CompetitionState × List UpsertRecord :=
  if jsTrim st.morseInput = "" then (st, [])
  else
    match st.questionStartTime with
    | none => (st, [])
    | some startTime =>
      if st.questions.length = 0 then (st, [])
      else
        match st.questions.get? st.currentQuestionIndex with
        | none => (st, [])
        | some currentQuestion =>
          let timeTakenSeconds := (now - startTime).fdiv 1000
          let isCorrect := submitIsCorrect st.morseInput currentQuestion
          let payload : UpsertRecord :=
            ⟨currentQuestion.id, jsTrim st.morseInput, isCorrect,
              timeTakenSeconds, now⟩
          if persistOk = false then (st, [payload])
          else
            let newAnswers :=
              setAnswer st.userProgress.answers currentQuestion.id
                ⟨jsTrim st.morseInput, isCorrect, now⟩
            if isCorrect then
              let newCompleted :=
                dedupStrings
                  (st.userProgress.completedQuestions ++ [currentQuestion.id]) []
              if st.currentQuestionIndex < st.questions.length - 1 then
                ({ st with
                    currentQuestionIndex := st.currentQuestionIndex + 1,
                    morseInput := "",
                    questionStartTime := some now,
                    userProgress :=
                      ⟨st.currentQuestionIndex + 1, newAnswers, newCompleted⟩ },
                  [payload])
              else
                ({ st with
                    userProgress :=
                      ⟨st.userProgress.currentQuestionIndex, newAnswers,
                        newCompleted⟩ },
                  [payload])
            else
              ({ st with
                  userProgress :=
                    { st.userProgress with answers := newAnswers } },
                [payload])

/-- The Locked-state recovery action (Competition.tsx line 200):
`Math.max(0, currentQuestionIndex - 1)`, which is truncated subtraction
on `Nat`. -/
def goBackIndex (i : Nat) : Nat := i - 1

/-! ## Leaderboard (Navbar component, `loadLeaderboard`) -/

/-- A row of the leaderboard query: `user_id, is_correct, time_taken_seconds,
question_id, profiles!inner(display_name)`, already filtered by
`is_correct = true` server-side. The joined display name may be null. -/
structure AnswerRec where
  user_id : String
  question_id : String
  time_taken_seconds : Int
  profiles_display_name : Option String
deriving DecidableEq

/-- The display-name fallback `answer.profiles.display_name || "Anonymous"`
— both a null and an
empty display name are falsy and fall back to `"Anonymous"`. -/
def displayNameOf (a : AnswerRec) : String :=
  match a.profiles_display_name with
  | none => "Anonymous"
  | some n => if n = "" then "Anonymous" else n

/-- The per-user accumulator of `userScores`:
`{ name, correct, totalTime, questionIds }` (the `Set` is modelled as the
insertion-ordered list of its elements; only membership is used). -/
structure UserScore where
  name : String
  correct : Nat
  totalTime : Int
  questionIds : List String
deriving DecidableEq

/-- The fresh entry created when a user is first seen
(`{ name: …, correct: 0, totalTime: 0, questionIds: new Set() }`). -/
def freshScore (a : AnswerRec) : UserScore :=
  ⟨displayNameOf a, 0, 0, []⟩

/-- The dedup-and-accumulate step: a question id already in the set is
skipped; otherwise it is added and the record's count and time are
accumulated. -/
def applyAnswer (s : UserScore) (a : AnswerRec) : UserScore :=
  if a.question_id ∈ s.questionIds then s
  else
    ⟨s.name, s.correct + 1, s.totalTime + a.time_taken_seconds,
      s.questionIds ++ [a.question_id]⟩

/-- One iteration of the `allAnswers.forEach` loop over the string-keyed
`userScores` object: create the user's entry if absent (appended, matching
object insertion order), then apply the dedup-and-accumulate step. -/
def addAnswer : List (String × UserScore) → AnswerRec → List (String × UserScore)
  | [], a => [(a.user_id, applyAnswer (freshScore a) a)]
  | (u, s) :: rest, a =>
    if u = a.user_id then (u, applyAnswer s a) :: rest
    else (u, s) :: addAnswer rest a

/-- The `userScores` object after the whole `forEach` loop. -/
def userScores (log : List AnswerRec) : List (String × UserScore) :=
  log.foldl addAnswer []

/-- Key lookup in the scores map. -/
def lookupScore : List (String × UserScore) → String → Option UserScore
  | [], _ => none
  | (k, v) :: rest, u => if k = u then some v else lookupScore rest u

/-- An element of the array built by the first `.map`:
`{ display_name, total_score, total_time }` with
`total_score = (correct / 5) * 100` — the question count is the hardcoded
literal `5` (source comment: "5 total questions"). Scores are exact
rationals in the model. -/
structure LBEntry where
  display_name : String
  total_score : ℚ
  total_time : Int
deriving DecidableEq

/-- The projection of a `userScores` entry to a leaderboard row. -/
def toEntry (p : String × UserScore) : LBEntry :=
  ⟨p.2.name, ((p.2.correct : ℚ) / 5) * 100, p.2.totalTime⟩

/-- The order imposed by the sort comparator
`(a, b) => b.total_score !== a.total_score ? b.total_score - a.total_score
: a.total_time - b.total_time`: `a` may precede `b` iff `a` has the larger
score, or equal score and no larger time. -/
def entryLe (a b : LBEntry) : Prop :=
  b.total_score < a.total_score ∨
    (a.total_score = b.total_score ∧ a.total_time ≤ b.total_time)

instance (a b : LBEntry) : Decidable (entryLe a b) := by
  unfold entryLe; infer_instance

/-- Insert into a list sorted by `entryLe`. -/
def insertLB (a : LBEntry) : List LBEntry → List LBEntry
  | [] => [a]
  | b :: rest => if entryLe a b then a :: b :: rest else b :: insertLB a rest

/-- The `.sort` call, modelled as insertion sort with the comparator's
order (the claims proved below do not depend on the engine's tie order,
which the spec leaves implementation-defined). -/
def sortLB : List LBEntry → List LBEntry
  | [] => []
  | a :: rest => insertLB a (sortLB rest)

/-- A final leaderboard row: `{ rank, display_name, total_score,
total_time }`. -/
structure LeaderboardEntry where
  rank : Nat
  display_name : String
  total_score : ℚ
  total_time : Int
deriving DecidableEq

/-- The final `.map((entry, index) => ({ rank: index + 1, ...entry }))`,
with `i` the index of the first element. -/
def rankEntries : List LBEntry → Nat → List LeaderboardEntry
  | [], _ => []
  | b :: rest, i =>
    ⟨i + 1, b.display_name, b.total_score, b.total_time⟩ :: rankEntries rest (i + 1)

/-- The pipeline `leaderboardData` (Navbar lines 131–145): project the
grouped scores,
sort, truncate to the top 10, and rank positionally from 1. -/
def leaderboardData (log : List AnswerRec) : List LeaderboardEntry :=
  rankEntries (List.take 10 (sortLB ((userScores log).map toEntry))) 0

/-! ### Retry schedule and pagination of `loadLeaderboard` -/

/-- The delays (in milliseconds) of the retries scheduled by
`loadLeaderboard` when the attempt at retry count `rc` fails: a failing
attempt with `rc < 3` schedules a retry after `2 ^ rc * 1000` ms and the
recursion continues at `rc + 1`; the attempt at `rc = 3` schedules
nothing. `fails rc` tells whether the attempt at retry count `rc` fails;
`remaining` is the number of retries still allowed, i.e. `3 - rc`, so the
guard `remaining > 0` is the source's `retryCount < 3`. -/
def retryDelaysAux (fails : Nat → Bool) (rc : Nat) : Nat → List Nat
  | 0 => []
  | remaining + 1 =>
    if fails rc then 2 ^ rc * 1000 :: retryDelaysAux fails (rc + 1) remaining
    else []

/-- The retry delays of a top-level `loadLeaderboard()` call
(`retryCount = 0`, three retries allowed). -/
def retryDelays (fails : Nat → Bool) : List Nat :=
  retryDelaysAux fails 0 3

/-- One response of the answer store to a page request: a data batch, or
an error. -/
inductive BatchResult where
  | ok (data : List AnswerRec)
  | err
deriving DecidableEq

/-- The pagination loop (Navbar lines 74–107) run against a sequence of
store responses, with `PAGE_SIZE = 100`: an empty batch or a short batch
ends the loop; a full batch is appended and the loop continues; an error
ends the loop keeping what was accumulated so far (the inner `catch` sets
`hasMoreData = false`). An exhausted response list behaves like an empty
batch. -/
def collectBatches : List BatchResult → List AnswerRec
  | [] => []
  | BatchResult.err :: _ => []
  | BatchResult.ok data :: rest =>
    if data.length = 0 then []
    else if data.length < 100 then data
    else data ++ collectBatches rest

/-! ## Claim-side characterizations

The following definitions render the properties the specification states;
the theorems below compare them with the source-derived functions above. -/

/-- The records of one user, in input-scan order. -/
def userRecords (log : List AnswerRec) (u : String) : List AnswerRec :=
  log.filter (fun a => a.user_id == u)

/-- The first record of each distinct `question_id` in scan order, given
the set of question ids already seen. -/
def dedupFirst : List AnswerRec → List String → List AnswerRec
  | [], _ => []
  | a :: rest, seen =>
    if a.question_id ∈ seen then dedupFirst rest seen
    else a :: dedupFirst rest (seen ++ [a.question_id])

/-- The grouped score a user's record list produces: none for a user with
no records, otherwise the fold of the accumulate step from the fresh entry
created at the user's first record. -/
def processUser : List AnswerRec → Option UserScore
  | [] => none
  | a :: rest => some ((a :: rest).foldl applyAnswer (freshScore a))

/-- Modelled from the spec: the scoring contract
`total_score_percent = (correct_count / total_question_count) * 100`, with
the `total_question_count` parameter of `computeLeaderboard`.  The source
has no such parameter — it hardcodes the literal `5`. -/
def totalScoreSpec (correct_count total_question_count : Nat) : ℚ :=
  ((correct_count : ℚ) / (total_question_count : ℚ)) * 100

/-- The claimed leaderboard order, on ranked rows: score descending,
ties broken by time ascending. -/
def entryLeRanked (a b : LeaderboardEntry) : Prop :=
  b.total_score < a.total_score ∨
    (a.total_score = b.total_score ∧ a.total_time ≤ b.total_time)

/-! ## Concrete data used by witnesses and counterexamples -/

/-- A two-question list. -/
def qsW : List Question :=
  [⟨"a", 1, "first", "."⟩, ⟨"b", 2, "second", "-"⟩]

/-- An answers map with the first question of `qsW` answered correctly. -/
def ansW : AnswersMap := [("a", ⟨".", true, 0⟩)]

/-- A three-question list. -/
def qs3 : List Question :=
  [⟨"a", 1, "first", "."⟩, ⟨"b", 2, "second", "-"⟩, ⟨"c", 3, "third", "."⟩]

/-- A correct answer of user `u` to question `q` taking 10 seconds. -/
def rA : AnswerRec := ⟨"u", "q", 10, some "n"⟩

/-- A duplicate correct answer for the same `(user, question)` pair,
taking 20 seconds. -/
def rB : AnswerRec := ⟨"u", "q", 20, some "n"⟩

/-- A correct answer used in the score counterexample. -/
def rC : AnswerRec := ⟨"u", "q", 7, some "Alice"⟩

/-- A record used to build a full page of 100 rows. -/
def a0 : AnswerRec := ⟨"u", "q", 1, none⟩

/-! ## Progress engine theorems -/

theorem activeIndexAux_spec (ans : AnswersMap) :
    ∀ (qs : List Question) (i : Nat), qs ≠ [] →
      activeIndexAux ans qs i =
        if List.findIdx (fun q => !isCorrectOutcome ans q.id) qs < qs.length
        then i + List.findIdx (fun q => !isCorrectOutcome ans q.id) qs
        else i + (qs.length - 1)
  | [], _, h => absurd rfl h
  | [q], i, _ => by
    cases hq : isCorrectOutcome ans q.id <;>
      simp [activeIndexAux, List.findIdx_cons, hq]
  | q :: q2 :: rest, i, _ => by
    have ih := activeIndexAux_spec ans (q2 :: rest) (i + 1) (by simp)
    cases hq : isCorrectOutcome ans q.id
    · simp [activeIndexAux, List.findIdx_cons, hq]
    · have hstep : activeIndexAux ans (q :: q2 :: rest) i
          = activeIndexAux ans (q2 :: rest) (i + 1) := by
        simp [activeIndexAux, hq]
      have hfx : List.findIdx (fun q => !isCorrectOutcome ans q.id)
            (q :: q2 :: rest)
          = List.findIdx (fun q => !isCorrectOutcome ans q.id) (q2 :: rest) + 1 := by
        simp [List.findIdx_cons, hq]
      rw [hstep, ih, hfx]
      simp only [List.length_cons]
      by_cases hfi :
          List.findIdx (fun q => !isCorrectOutcome ans q.id) (q2 :: rest) <
            rest.length + 1
      · rw [if_pos hfi, if_pos (by omega)]
        omega
      · rw [if_neg hfi, if_neg (by omega)]
        omega

/-- C1. For every nonempty ordered question list and every answer map,
the active question index computed on load is the index of the first
question (in order) whose `question_id` has no recorded outcome or an
incorrect outcome (`findIdx` of the not-correct predicate, when it is in
range); if every question has a correct outcome (`findIdx` falls off the
end), it is the index of the last question. -/
theorem computeActiveIndex_first_unsolved (qs : List Question)
    (ans : AnswersMap) (h : qs ≠ []) :
    computeActiveIndex qs ans =
      if List.findIdx (fun q => !isCorrectOutcome ans q.id) qs < qs.length
      then List.findIdx (fun q => !isCorrectOutcome ans q.id) qs
      else qs.length - 1 := by
  have := activeIndexAux_spec ans qs 0 h
  simpa [computeActiveIndex] using this

/-- Witness for C1: on `qsW` with the first question answered correctly,
the computed active index is 1, the first not-yet-correct position. -/
theorem computeActiveIndex_first_unsolved_witness :
    computeActiveIndex qsW ansW = 1 :=
  (computeActiveIndex_first_unsolved qsW ansW (by decide)).trans (by decide)

/-- C2. `canAccessQuestion 0` is always `true`; and for every in-range
index `i > 0`, `canAccessQuestion i` is `true` iff the answer map records
an outcome for the previous question's id whose `isCorrect` field is
`true`. -/
theorem canAccessQuestion_gating (qs : List Question) (ans : AnswersMap) :
    canAccessQuestion 0 qs ans = true ∧
    ∀ i : Nat, 0 < i → ∀ h : i - 1 < qs.length,
      (canAccessQuestion i qs ans = true ↔
        ∃ o, lookupAnswer ans (qs.get ⟨i - 1, h⟩).id = some o ∧
          o.isCorrect = true) := by
  constructor
  · simp [canAccessQuestion]
  · intro i hi h
    have hi0 : i ≠ 0 := Nat.pos_iff_ne_zero.mp hi
    have hlen : qs.length ≠ 0 := by omega
    have hgg : qs.get? (i - 1) = some (qs.get ⟨i - 1, h⟩) := List.get?_eq_get h
    simp only [canAccessQuestion, if_neg hi0, if_neg hlen, hgg, isCorrectOutcome]
    cases hlk : lookupAnswer ans (qs.get ⟨i - 1, h⟩).id with
    | none => simp [hlk]
    | some o => simp [hlk]

/-- Witness for C2: with the first question of `qsW` answered correctly,
index 1 is accessible. -/
theorem canAccessQuestion_gating_witness :
    canAccessQuestion 1 qsW ansW = true :=
  ((canAccessQuestion_gating qsW ansW).2 1 (by decide) (by decide)).mpr
    ⟨⟨".", true, 0⟩, by decide, rfl⟩

/-! ## Submission theorems -/

/-- Counterexample to C6 as stated: the input `" .-"` (with a leading
space) is marked correct against `correct_answer = ".-"` although the
submitted string is not exactly equal to it — the source compares
`morseInput.trim()`, not `morseInput` itself. -/
theorem submit_exact_match_counterexample :
    submitIsCorrect " .-" ⟨"q1", 1, "prompt", ".-"⟩ = true ∧
    " .-" ≠ ".-" := by
  decide

/-- C6 (amended). The `is_correct` flag is `true` iff the submitted
string with leading and trailing whitespace removed is exactly equal to
the question's `correct_answer`; in particular, for submitted strings the
trim leaves unchanged — which includes every string the dot/dash input
buttons can produce — it is `true` iff the submitted string itself equals
`correct_answer`, with no partial or fuzzy matching. -/
theorem submit_exact_match_after_trim (input : String) (q : Question) :
    (submitIsCorrect input q = true ↔ jsTrim input = q.correct_answer) ∧
    (jsTrim input = input →
      (submitIsCorrect input q = true ↔ input = q.correct_answer)) := by
  constructor
  · simp [submitIsCorrect]
  · intro ht
    simp [submitIsCorrect, ht]

/-- Witness for C6 (amended): the whitespace-free input `".-"` submitted
against `correct_answer = ".-"` is marked correct. -/
theorem submit_exact_match_after_trim_witness :
    submitIsCorrect ".-" ⟨"q1", 1, "prompt", ".-"⟩ = true :=
  ((submit_exact_match_after_trim ".-" ⟨"q1", 1, "prompt", ".-"⟩).2
    (by decide)).mpr rfl

/-- C7. When the persistence write fails (`persistOk = false`), the
submit transition leaves the whole local state — progress state, current
question index, input buffer and question start time — unchanged, and
attempts at most one write (no automatic retry). -/
theorem submit_persist_failure_no_change (st : CompetitionState) (now : Int) :
    (handleSubmit st false now).1 = st ∧
    (handleSubmit st false now).2.length ≤ 1 := by
  unfold handleSubmit
  split
  · exact ⟨rfl, by simp⟩
  · split
    · exact ⟨rfl, by simp⟩
    · split
      · exact ⟨rfl, by simp⟩
      · split
        · exact ⟨rfl, by simp⟩
        · simp

/-! ## Locked-state recovery theorems -/

/-- Iterating the recovery action `i` times from index `i` reaches 0. -/
theorem goBackIndex_iterate (n : Nat) : goBackIndex^[n] n = 0 := by
  induction n with
  | zero => rfl
  | succ k ih =>
    rw [Function.iterate_succ_apply]
    simpa [goBackIndex] using ih

/-- Counterexample to C9 as stated: with three questions and no answers,
index 2 is locked, the recovery action steps to index 1, and index 1 is
still not accessible — the recovery index is not an accessible index. -/
theorem locked_recovery_counterexample :
    canAccessQuestion 2 qs3 [] = false ∧
    goBackIndex 2 = 1 ∧
    canAccessQuestion (goBackIndex 2) qs3 [] = false := by
  decide

/-- C9 (amended). Whenever the Locked state is entered
(`canAccessQuestion` is `false` for the current index `i`), the recovery
action sets the current index to the immediately preceding index
`max 0 (i - 1)`; the resulting index need not itself be accessible, but
index 0 always is, and repeatedly applying the recovery action reaches
it. -/
theorem locked_recovery_steps_back (qs : List Question) (ans : AnswersMap)
    (i : Nat) (_hlock : canAccessQuestion i qs ans = false) :
    goBackIndex i = i - 1 ∧
    canAccessQuestion 0 qs ans = true ∧
    goBackIndex^[i] i = 0 :=
  ⟨rfl, by simp [canAccessQuestion], goBackIndex_iterate i⟩

/-- Witness for C9 (amended): the locked index 2 of the counterexample
scenario steps back to 1, and two recovery steps reach the always
accessible index 0. -/
theorem locked_recovery_steps_back_witness :
    goBackIndex 2 = 2 - 1 ∧
    canAccessQuestion 0 qs3 [] = true ∧
    goBackIndex^[2] 2 = 0 :=
  locked_recovery_steps_back qs3 [] 2 (by decide)

/-! ## Leaderboard ordering lemmas -/

theorem entryLe_total (a b : LBEntry) : entryLe a b ∨ entryLe b a := by
  unfold entryLe
  rcases lt_trichotomy a.total_score b.total_score with h | h | h
  · exact Or.inr (Or.inl h)
  · rcases le_total a.total_time b.total_time with ht | ht
    · exact Or.inl (Or.inr ⟨h, ht⟩)
    · exact Or.inr (Or.inr ⟨h.symm, ht⟩)
  · exact Or.inl (Or.inl h)

theorem entryLe_trans {a b c : LBEntry} (h1 : entryLe a b) (h2 : entryLe b c) :
    entryLe a c := by
  rcases h1 with h1 | ⟨h1e, h1t⟩
  · rcases h2 with h2 | ⟨h2e, h2t⟩
    · exact Or.inl (lt_trans h2 h1)
    · exact Or.inl (by rw [← h2e]; exact h1)
  · rcases h2 with h2 | ⟨h2e, h2t⟩
    · exact Or.inl (by rw [h1e]; exact h2)
    · exact Or.inr ⟨h1e.trans h2e, le_trans h1t h2t⟩

theorem mem_insertLB (x a : LBEntry) (l : List LBEntry) :
    x ∈ insertLB a l ↔ x = a ∨ x ∈ l := by
  induction l with
  | nil => simp [insertLB]
  | cons b rest ih =>
    by_cases hab : entryLe a b
    · simp [insertLB, hab]
    · simp only [insertLB, if_neg hab, List.mem_cons, ih]
      tauto

theorem pairwise_insertLB (a : LBEntry) (l : List LBEntry)
    (hl : List.Pairwise entryLe l) :
    List.Pairwise entryLe (insertLB a l) := by
  induction l with
  | nil => simp [insertLB]
  | cons b rest ih =>
    rcases List.pairwise_cons.mp hl with ⟨hb, hrest⟩
    by_cases hab : entryLe a b
    · rw [insertLB, if_pos hab]
      refine List.pairwise_cons.mpr ⟨?_, hl⟩
      intro y hy
      rcases List.mem_cons.mp hy with rfl | hy'
      · exact hab
      · exact entryLe_trans hab (hb y hy')
    · rw [insertLB, if_neg hab]
      refine List.pairwise_cons.mpr ⟨?_, ih hrest⟩
      intro y hy
      rcases (mem_insertLB y a rest).mp hy with rfl | hy'
      · rcases entryLe_total y b with h | h
        · exact absurd h hab
        · exact h
      · exact hb y hy'

theorem pairwise_sortLB : ∀ l : List LBEntry, List.Pairwise entryLe (sortLB l)
  | [] => by simp [sortLB]
  | a :: rest => by
    rw [sortLB]
    exact pairwise_insertLB a _ (pairwise_sortLB rest)

theorem mem_sortLB (x : LBEntry) : ∀ l : List LBEntry, x ∈ sortLB l ↔ x ∈ l
  | [] => by simp [sortLB]
  | a :: rest => by
    rw [sortLB, mem_insertLB x a (sortLB rest)]
    simp [mem_sortLB x rest]

theorem length_rankEntries :
    ∀ (l : List LBEntry) (i : Nat), (rankEntries l i).length = l.length
  | [], _ => rfl
  | b :: rest, i => by
    simp [rankEntries, length_rankEntries rest (i + 1)]

theorem map_rank_rankEntries :
    ∀ (l : List LBEntry) (i : Nat),
      (rankEntries l i).map (fun e => e.rank) = List.range' (i + 1) l.length
  | [], _ => by simp [rankEntries]
  | b :: rest, i => by
    rw [rankEntries, List.map_cons, map_rank_rankEntries rest (i + 1),
      List.length_cons, List.range'_succ]

theorem mem_rankEntries (x : LeaderboardEntry) :
    ∀ (l : List LBEntry) (i : Nat), x ∈ rankEntries l i →
      ∃ b ∈ l, x.display_name = b.display_name ∧
        x.total_score = b.total_score ∧ x.total_time = b.total_time
  | [], _, h => absurd h (by simp [rankEntries])
  | b :: rest, i, h => by
    rw [rankEntries] at h
    rcases List.mem_cons.mp h with rfl | h'
    · exact ⟨b, by simp, rfl, rfl, rfl⟩
    · rcases mem_rankEntries x rest (i + 1) h' with ⟨c, hc, hprops⟩
      exact ⟨c, List.mem_cons_of_mem _ hc, hprops⟩

theorem pairwise_rankEntries :
    ∀ (l : List LBEntry) (i : Nat), List.Pairwise entryLe l →
      List.Pairwise entryLeRanked (rankEntries l i)
  | [], _, _ => by simp [rankEntries]
  | b :: rest, i, hl => by
    rcases List.pairwise_cons.mp hl with ⟨hb, hrest⟩
    rw [rankEntries]
    refine List.pairwise_cons.mpr ⟨?_, pairwise_rankEntries rest (i + 1) hrest⟩
    intro y hy
    rcases mem_rankEntries y rest (i + 1) hy with ⟨c, hc, _, hsc, htt⟩
    have hbc := hb c hc
    unfold entryLe at hbc
    unfold entryLeRanked
    rw [hsc, htt]
    exact hbc

/-- C4. For every answer log, the produced leaderboard contains at
most 10 entries, is sorted by total score percent descending with ties
broken by total time ascending, and its rank column is exactly
`[1, 2, …, n]` — rank is position + 1, so no two entries share a rank even
with equal score and time. -/
theorem leaderboard_sorted_top10_ranked (log : List AnswerRec) :
    (leaderboardData log).length ≤ 10 ∧
    List.Pairwise entryLeRanked (leaderboardData log) ∧
    (leaderboardData log).map (fun e => e.rank) =
      List.range' 1 (leaderboardData log).length := by
  unfold leaderboardData
  refine ⟨?_, ?_, ?_⟩
  · rw [length_rankEntries, List.length_take]
    exact Nat.min_le_left 10 _
  · exact pairwise_rankEntries _ 0
      (List.Pairwise.sublist (List.take_sublist 10 _) (pairwise_sortLB _))
  · rw [map_rank_rankEntries, length_rankEntries]

/-! ## Leaderboard grouping lemmas -/

theorem lookupScore_addAnswer (m : List (String × UserScore)) (a : AnswerRec)
    (u : String) :
    lookupScore (addAnswer m a) u =
      if u = a.user_id then
        some (applyAnswer ((lookupScore m u).getD (freshScore a)) a)
      else lookupScore m u := by
  induction m with
  | nil =>
    by_cases hu : u = a.user_id
    · simp [addAnswer, lookupScore, hu]
    · simp [addAnswer, lookupScore, hu, Ne.symm hu]
  | cons p rest ih =>
    obtain ⟨k, s⟩ := p
    by_cases hk : k = a.user_id
    · by_cases hu : u = a.user_id
      · simp [addAnswer, lookupScore, hk, hu]
      · have hau : ¬(a.user_id = u) := fun h => hu h.symm
        simp [addAnswer, lookupScore, hk, hu, hau]
    · by_cases hku : k = u
      · have hu : ¬(u = a.user_id) := fun h => hk (hku.trans h)
        simp [addAnswer, lookupScore, hk, hku, hu]
      · simp [addAnswer, lookupScore, hk, hku, ih]

theorem lookupScore_foldl (u : String) :
    ∀ (log : List AnswerRec) (m : List (String × UserScore)),
      lookupScore (log.foldl addAnswer m) u =
        match lookupScore m u with
        | some s => some ((userRecords log u).foldl applyAnswer s)
        | none => processUser (userRecords log u)
  | [], m => by
    cases h : lookupScore m u <;> simp [userRecords, processUser, h]
  | a :: log, m => by
    rw [List.foldl_cons, lookupScore_foldl u log (addAnswer m a),
      lookupScore_addAnswer]
    by_cases hu : a.user_id = u
    · have hrec : userRecords (a :: log) u = a :: userRecords log u := by
        simp [userRecords, hu]
      rw [if_pos hu.symm, hrec]
      cases h : lookupScore m u with
      | some s => simp [h]
      | none => simp [h, processUser]
    · have hrec : userRecords (a :: log) u = userRecords log u := by
        simp [userRecords, hu]
      rw [if_neg (fun h => hu h.symm), hrec]

theorem lookupScore_userScores (log : List AnswerRec) (u : String) :
    lookupScore (userScores log) u = processUser (userRecords log u) := by
  have h := lookupScore_foldl u log []
  simpa [userScores, lookupScore] using h

theorem foldl_applyAnswer_spec :
    ∀ (recs : List AnswerRec) (s : UserScore),
      (recs.foldl applyAnswer s).correct
          = s.correct + (dedupFirst recs s.questionIds).length ∧
      (recs.foldl applyAnswer s).totalTime
          = s.totalTime + ((dedupFirst recs s.questionIds).map
              (fun a => a.time_taken_seconds)).sum ∧
      (recs.foldl applyAnswer s).questionIds
          = s.questionIds ++
            (dedupFirst recs s.questionIds).map (fun a => a.question_id)
  | [], s => by simp [dedupFirst]
  | a :: rest, s => by
    by_cases hmem : a.question_id ∈ s.questionIds
    · have happ : applyAnswer s a = s := by simp [applyAnswer, hmem]
      have hdd : dedupFirst (a :: rest) s.questionIds
          = dedupFirst rest s.questionIds := by simp [dedupFirst, hmem]
      rw [List.foldl_cons, happ, hdd]
      exact foldl_applyAnswer_spec rest s
    · have hq : (applyAnswer s a).questionIds
          = s.questionIds ++ [a.question_id] := by simp [applyAnswer, hmem]
      have hc : (applyAnswer s a).correct = s.correct + 1 := by
        simp [applyAnswer, hmem]
      have ht : (applyAnswer s a).totalTime
          = s.totalTime + a.time_taken_seconds := by simp [applyAnswer, hmem]
      have hdd : dedupFirst (a :: rest) s.questionIds
          = a :: dedupFirst rest (s.questionIds ++ [a.question_id]) := by
        simp [dedupFirst, hmem]
      obtain ⟨ih1, ih2, ih3⟩ := foldl_applyAnswer_spec rest (applyAnswer s a)
      rw [hq] at ih1 ih2 ih3
      rw [List.foldl_cons, hdd]
      refine ⟨?_, ?_, ?_⟩
      · rw [ih1, hc, List.length_cons]
        omega
      · rw [ih2, ht, List.map_cons, List.sum_cons]
        omega
      · rw [ih3]
        simp

theorem lookupScore_spec (log : List AnswerRec) (u : String) (s : UserScore)
    (h : lookupScore (userScores log) u = some s) :
    s.correct = (dedupFirst (userRecords log u) []).length ∧
    s.totalTime = ((dedupFirst (userRecords log u) []).map
      (fun a => a.time_taken_seconds)).sum := by
  rw [lookupScore_userScores] at h
  cases hrec : userRecords log u with
  | nil =>
    rw [hrec] at h
    exact absurd h (by simp [processUser])
  | cons a rest =>
    rw [hrec] at h
    simp only [processUser, Option.some_inj] at h
    subst h
    obtain ⟨h1, h2, _⟩ := foldl_applyAnswer_spec (a :: rest) (freshScore a)
    constructor
    · rw [h1]
      simp [freshScore]
    · rw [h2]
      simp [freshScore]

theorem keys_addAnswer (m : List (String × UserScore)) (a : AnswerRec) :
    (addAnswer m a).map Prod.fst =
      if a.user_id ∈ m.map Prod.fst then m.map Prod.fst
      else m.map Prod.fst ++ [a.user_id] := by
  induction m with
  | nil => simp [addAnswer]
  | cons p rest ih =>
    obtain ⟨k, s⟩ := p
    by_cases hk : k = a.user_id
    · subst hk
      simp [addAnswer]
    · have hne : ¬(a.user_id = k) := Ne.symm hk
      by_cases hmem : a.user_id ∈ rest.map Prod.fst <;>
        simp [addAnswer, hk, ih, hne, hmem]

theorem keys_nodup_userScores (log : List AnswerRec) :
    ((userScores log).map Prod.fst).Nodup := by
  suffices h : ∀ m : List (String × UserScore), (m.map Prod.fst).Nodup →
      ((log.foldl addAnswer m).map Prod.fst).Nodup from h [] (by simp)
  induction log with
  | nil => intro m hm; simpa using hm
  | cons a log ih =>
    intro m hm
    rw [List.foldl_cons]
    apply ih
    rw [keys_addAnswer]
    by_cases hmem : a.user_id ∈ m.map Prod.fst
    · simpa [hmem] using hm
    · simp [hmem, List.nodup_append, hm]

theorem lookupScore_of_mem :
    ∀ (m : List (String × UserScore)), (m.map Prod.fst).Nodup →
      ∀ p : String × UserScore, p ∈ m → lookupScore m p.1 = some p.2
  | [], _, _, hp => absurd hp (List.not_mem_nil _)
  | q :: rest, hnd, p, hp => by
    obtain ⟨k, s⟩ := q
    simp only [List.map_cons] at hnd
    rcases List.nodup_cons.mp hnd with ⟨hknot, hnd'⟩
    rcases List.mem_cons.mp hp with rfl | hp'
    · simp [lookupScore]
    · have hk : ¬(k = p.1) := by
        intro hkk
        apply hknot
        rw [hkk]
        exact List.mem_map_of_mem Prod.fst hp'
      rw [lookupScore, if_neg hk]
      exact lookupScore_of_mem rest hnd' p hp'

theorem dedupFirst_countP (q : String) :
    ∀ (recs : List AnswerRec) (seen : List String),
      List.countP (fun a => a.question_id == q) (dedupFirst recs seen) =
        if q ∈ seen then 0
        else if q ∈ recs.map (fun a => a.question_id) then 1 else 0
  | [], seen => by simp [dedupFirst]
  | a :: rest, seen => by
    by_cases hmem : a.question_id ∈ seen
    · rw [show dedupFirst (a :: rest) seen = dedupFirst rest seen from by
        simp [dedupFirst, hmem]]
      rw [dedupFirst_countP q rest seen]
      by_cases hq : q ∈ seen
      · simp [hq]
      · have hne : ¬(q = a.question_id) := fun h => hq (h ▸ hmem)
        simp [hq, List.map_cons, List.mem_cons, hne]
    · rw [show dedupFirst (a :: rest) seen
          = a :: dedupFirst rest (seen ++ [a.question_id]) from by
        simp [dedupFirst, hmem]]
      rw [List.countP_cons, dedupFirst_countP q rest (seen ++ [a.question_id])]
      by_cases hqa : q = a.question_id
      · subst hqa
        simp [hmem, List.mem_append]
      · have hne : ¬(a.question_id = q) := fun h => hqa h.symm
        simp [List.mem_append, hqa, hne, List.map_cons, List.mem_cons]

/-! ## Leaderboard scoring theorems -/

/-- Counterexample to C3 as stated: the aggregation takes no total
question count — it divides by the hardcoded literal 5.  For the log with
one correct answer of one user, the produced entry's score is 20, while
the claimed formula with a passed `total_question_count` of 10 gives 10. -/
theorem leaderboard_score_param_counterexample :
    leaderboardData [rC] = [⟨1, "Alice", 20, 7⟩] ∧
    totalScoreSpec 1 10 = 10 ∧
    (20 : ℚ) ≠ 10 := by
  refine ⟨?_, by norm_num [totalScoreSpec], by norm_num⟩
  norm_num [leaderboardData, userScores, addAnswer, applyAnswer, freshScore,
    displayNameOf, toEntry, sortLB, insertLB, rankEntries, rC]
  decide

/-- C3 (amended). Every entry of the produced leaderboard carries a
total score percent equal to (that user's deduplicated correct-answer
count / 5) * 100: the total question count is the hardcoded literal 5,
not a parameter of the aggregation. -/
theorem leaderboard_score_hardcoded_five (log : List AnswerRec)
    (e : LeaderboardEntry) (he : e ∈ leaderboardData log) :
    ∃ u : String,
      e.total_score =
        (((dedupFirst (userRecords log u) []).length : ℚ) / 5) * 100 := by
  unfold leaderboardData at he
  rcases mem_rankEntries e _ 0 he with ⟨b, hb, _, hsc, _⟩
  have hb' : b ∈ sortLB ((userScores log).map toEntry) :=
    List.mem_of_mem_take hb
  have hb'' : b ∈ (userScores log).map toEntry := (mem_sortLB b _).mp hb'
  rcases List.mem_map.mp hb'' with ⟨p, hp, rfl⟩
  refine ⟨p.1, ?_⟩
  have hlk : lookupScore (userScores log) p.1 = some p.2 :=
    lookupScore_of_mem _ (keys_nodup_userScores log) p hp
  rcases lookupScore_spec log p.1 p.2 hlk with ⟨hc, _⟩
  rw [hsc]
  simp [toEntry, hc]

/-- Witness for C3 (amended): the single entry produced from one correct
answer has score (1 / 5) * 100 = 20. -/
theorem leaderboard_score_hardcoded_five_witness :
    ∃ u : String,
      (⟨1, "Alice", 20, 7⟩ : LeaderboardEntry).total_score =
        (((dedupFirst (userRecords [rC] u) []).length : ℚ) / 5) * 100 :=
  leaderboard_score_hardcoded_five [rC] ⟨1, "Alice", 20, 7⟩ (by
    have h : leaderboardData [rC] = [⟨1, "Alice", 20, 7⟩] := by
      norm_num [leaderboardData, userScores, addAnswer, applyAnswer,
        freshScore, displayNameOf, toEntry, sortLB, insertLB, rankEntries, rC]
      decide
    rw [h]
    exact List.mem_singleton.mpr rfl)

/-- C5. For every answer log in which some user has two or more
correct records for the same question id, the aggregation's entry for that
user counts over the list of first-per-question records: that question
contributes exactly one record to that list, whose length is the user's
correct count and whose summed times are the user's total time — so the
duplicated question counts exactly once toward both. -/
theorem leaderboard_dedup_counts_once (log : List AnswerRec) (u q : String)
    (hdup : 2 ≤ (log.filter
      (fun a => a.user_id == u && a.question_id == q)).length) :
    ∃ s, lookupScore (userScores log) u = some s ∧
      s.correct = (dedupFirst (userRecords log u) []).length ∧
      s.totalTime = ((dedupFirst (userRecords log u) []).map
        (fun a => a.time_taken_seconds)).sum ∧
      List.countP (fun a => a.question_id == q)
        (dedupFirst (userRecords log u) []) = 1 := by
  have hpos : 0 < (log.filter
      (fun a => a.user_id == u && a.question_id == q)).length := by omega
  obtain ⟨a, ha⟩ := List.exists_mem_of_length_pos hpos
  have hamem := List.mem_filter.mp ha
  obtain ⟨halog, hpred⟩ := hamem
  have hau : a.user_id = u := by
    simp only [Bool.and_eq_true, beq_iff_eq] at hpred
    exact hpred.1
  have haq : a.question_id = q := by
    simp only [Bool.and_eq_true, beq_iff_eq] at hpred
    exact hpred.2
  have ha_u : a ∈ userRecords log u :=
    List.mem_filter.mpr ⟨halog, by simp [hau]⟩
  obtain ⟨s, hsome⟩ : ∃ s, lookupScore (userScores log) u = some s := by
    rw [lookupScore_userScores]
    cases hrec : userRecords log u with
    | nil =>
      rw [hrec] at ha_u
      exact absurd ha_u (List.not_mem_nil a)
    | cons b rest => exact ⟨_, rfl⟩
  refine ⟨s, hsome, (lookupScore_spec log u s hsome).1,
    (lookupScore_spec log u s hsome).2, ?_⟩
  rw [dedupFirst_countP q (userRecords log u) []]
  have hqmem : q ∈ (userRecords log u).map (fun a => a.question_id) :=
    List.mem_map.mpr ⟨a, ha_u, haq⟩
  simp [hqmem]

/-- Witness for C5: the log `[rA, rB]` holds two correct records of user
`"u"` for question `"q"`; the produced score counts it once. -/
theorem leaderboard_dedup_counts_once_witness :
    ∃ s, lookupScore (userScores [rA, rB]) "u" = some s ∧
      s.correct = (dedupFirst (userRecords [rA, rB] "u") []).length ∧
      s.totalTime = ((dedupFirst (userRecords [rA, rB] "u") []).map
        (fun a => a.time_taken_seconds)).sum ∧
      List.countP (fun a => a.question_id == "q")
        (dedupFirst (userRecords [rA, rB] "u") []) = 1 :=
  leaderboard_dedup_counts_once [rA, rB] "u" "q" (by decide)

/-- C10. A user's total time is the sum of `time_taken_seconds` over
the first record per distinct question id in input-scan order; later
duplicates contribute nothing, so the result depends on the order of
duplicate records: the logs `[rA, rB]` and `[rB, rA]` (duplicate records
with times 10 and 20 for the same user/question pair) produce total times
10 and 20 respectively. -/
theorem leaderboard_time_first_occurrence :
    (∀ (log : List AnswerRec) (u : String) (s : UserScore),
        lookupScore (userScores log) u = some s →
        s.totalTime = ((dedupFirst (userRecords log u) []).map
          (fun a => a.time_taken_seconds)).sum) ∧
    Option.map (fun s => s.totalTime) (lookupScore (userScores [rA, rB]) "u")
      = some 10 ∧
    Option.map (fun s => s.totalTime) (lookupScore (userScores [rB, rA]) "u")
      = some 20 :=
  ⟨fun log u s h => (lookupScore_spec log u s h).2, by decide, by decide⟩

/-- Witness for C10: for the single-record log `[rA]`, the stored total
time 10 equals the time of the unique first occurrence. -/
theorem leaderboard_time_first_occurrence_witness :
    (⟨"n", 1, 10, ["q"]⟩ : UserScore).totalTime =
      ((dedupFirst (userRecords [rA] "u") []).map
        (fun a => a.time_taken_seconds)).sum :=
  leaderboard_time_first_occurrence.1 [rA] "u" _ (by decide)

/-! ## Retry and pagination theorems -/

theorem retryDelaysAux_length (fails : Nat → Bool) :
    ∀ (remaining rc : Nat),
      (retryDelaysAux fails rc remaining).length ≤ remaining
  | 0, _ => by simp [retryDelaysAux]
  | remaining + 1, rc => by
    by_cases hf : fails rc
    · rw [retryDelaysAux, if_pos hf, List.length_cons]
      exact Nat.succ_le_succ (retryDelaysAux_length fails remaining (rc + 1))
    · simp [retryDelaysAux, hf]

/-- C8. The leaderboard load schedules at most 3 retries; when every
attempt fails, the scheduled delays are exactly 1000ms, 2000ms and 4000ms
(the k-th retry delayed by `2 ^ k * 1000`); and a batch failure
mid-pagination makes the aggregation proceed with the already retrieved
full page instead of aborting. -/
theorem leaderboard_retry_and_pagination :
    retryDelays (fun _ => true) = [1000, 2000, 4000] ∧
    (∀ fails : Nat → Bool, (retryDelays fails).length ≤ 3) ∧
    (∀ (d : List AnswerRec) (rest : List BatchResult), d.length = 100 →
      collectBatches (BatchResult.ok d :: BatchResult.err :: rest) = d) := by
  refine ⟨by decide, fun fails => retryDelaysAux_length fails 3 0, ?_⟩
  intro d rest h
  simp [collectBatches, h]

/-- Witness for C8: a full page of 100 records followed by a failing
batch is kept as the result. -/
theorem leaderboard_retry_and_pagination_witness :
    collectBatches
        (BatchResult.ok (List.replicate 100 a0) :: BatchResult.err :: []) =
      List.replicate 100 a0 :=
  leaderboard_retry_and_pagination.2.2 (List.replicate 100 a0) [] (by simp)

end MorseQuiz
